import Mathlib

/-!
Verification of the confidence-masking / guardrail-restoration core.

Shallow embedding of `src/grader/ai_cleanup.py` (`_guardrail_ok`, `restore`)
and `src/grader/ocr.py` (`_build_masked_text`).  Python strings are modelled
as `List Char`; `str.find`, slicing, `regex.split` on the literal placeholder
pattern, and the word-boundary search of the masker are modelled explicitly
below.  Confidence values are modelled as an integer or an `invalid` marker
(the `float(...)`-raises-`ValueError` case that the source catches).
-/

set_option autoImplicit false

namespace OcrBatcher

/-- The placeholder marker `[[UNK]]` used by both the masker and the verifier. -/
def unkChars : List Char := ['[', '[', 'U', 'N', 'K', ']', ']']

/-- Fuel-driven worker for `splitParts`; the fuel only serves to make the
recursion structural (each step consumes at least one character, so any fuel
`≥ s.length` gives the same result). -/
def splitPartsAux : Nat → List Char → List (List Char)
  | _, [] => [[]]
  | 0, _ :: _ => [[]]
  | fuel + 1, c :: rest =>
    if unkChars.isPrefixOf (c :: rest) then
      [] :: unkChars :: splitPartsAux fuel ((c :: rest).drop unkChars.length)
    else
      match splitPartsAux fuel rest with
      | t :: ps => (c :: t) :: ps
      | [] => [[c]]

/-- `regex.split(r"(\[\[UNK]])", s)`: split `s` at the leftmost,
non-overlapping occurrences of the literal `[[UNK]]`, keeping the separators
as elements of the result (Python keeps capture groups).  The result
alternates text pieces and separator occurrences, beginning and ending with a
(possibly empty) text piece. -/
def splitParts (s : List Char) : List (List Char) :=
  splitPartsAux s.length s

/-- Python `next_literal` lookahead in `_guardrail_ok`: the first element of
`parts[idx+1:]` that is not the placeholder marker (`""` when there is none). -/
def nextLiteral : List (List Char) → List Char
  | [] => []
  | p :: ps => if p = unkChars then nextLiteral ps else p

/-- Fuel-driven scan for Python `str.find(needle, start)`: try indices
`i, i+1, ...` until the needle is a prefix of the remaining text. -/
def findFromAux (hay needle : List Char) : Nat → Nat → Option Nat
  | _, 0 => none
  | i, fuel + 1 =>
    if needle.isPrefixOf (hay.drop i) then some i
    else findFromAux hay needle (i + 1) fuel

/-- Python `hay.find(needle, start)`: smallest index `≥ start` at which
`needle` occurs in `hay` (`none` for Python's `-1`). -/
def findFrom (hay needle : List Char) (start : Nat) : Option Nat :=
  if start ≤ hay.length then findFromAux hay needle start (hay.length + 1 - start)
  else none

/-- The `while idx < len(parts)` loop of `_guardrail_ok`, walking the split
parts with a cursor `position` into `restored`.  Faithful to the source:
a placeholder part jumps the cursor to the first occurrence of the next
non-placeholder part (to the end of `restored` when that part is empty or
absent), an empty literal part is skipped, and a non-empty literal part must
occur at exactly the current cursor. -/
def guardrailWalk (restored : List Char) : List (List Char) → Nat → Bool
  | [], _ => true
  | part :: rest, position =>
    if part = unkChars then
      if nextLiteral rest = [] then
        guardrailWalk restored rest restored.length
      else
        match findFrom restored (nextLiteral rest) position with
        | none => false
        | some p => guardrailWalk restored rest p
    else if part = [] then
      guardrailWalk restored rest position
    else
      if (restored.drop position).take part.length = part then
        guardrailWalk restored rest (position + part.length)
      else false

/-- `_guardrail_ok(masked_text, restored_text)` from `src/grader/ai_cleanup.py`. -/
def _guardrail_ok (masked restored : List Char) : Bool :=
  if masked = restored then true
  else guardrailWalk restored (splitParts masked) 0

/-- Python `token.strip()`: remove leading and trailing whitespace. -/
def strip (s : List Char) : List Char :=
  ((s.dropWhile Char.isWhitespace).reverse.dropWhile Char.isWhitespace).reverse

/-- A word character in the sense of the masker's `\w` (letters, digits,
underscore). -/
def isWordChar (c : Char) : Bool := c.isAlphanum || c = '_'

/-- `\b` immediately before position `i` of `hay`: start of text, or the
preceding character is not a word character. -/
def boundaryBefore (hay : List Char) (i : Nat) : Bool :=
  i == 0 || !(isWordChar (hay.getD (i - 1) ' '))

/-- `\b` immediately after position `j` of `hay`: end of text, or the
character at `j` is not a word character. -/
def boundaryAfter (hay : List Char) (j : Nat) : Bool :=
  j == hay.length || !(isWordChar (hay.getD j ' '))

/-- One position of the masker's pattern search: the (regex-escaped, hence
literal) token occurs at `i`, and, in word mode (`\b...\b`), both of its ends
lie on word boundaries. -/
def matchAt (hay pat : List Char) (word : Bool) (i : Nat) : Bool :=
  pat.isPrefixOf (hay.drop i) &&
    (!word || (boundaryBefore hay i && boundaryAfter hay (i + pat.length)))

/-- Fuel-driven scan for `pattern.search(hay, start)`: try positions
`i, i+1, ...` and return the first match. -/
def searchAux (hay pat : List Char) (word : Bool) : Nat → Nat → Option Nat
  | _, 0 => none
  | i, fuel + 1 =>
    if matchAt hay pat word i then some i
    else searchAux hay pat word (i + 1) fuel

/-- `pattern.search(hay, start)` of the masker: position of the leftmost
match at or after `start` (`none` when there is no match). -/
def reSearch (hay pat : List Char) (word : Bool) (start : Nat) : Option Nat :=
  if start ≤ hay.length then searchAux hay pat word start (hay.length + 1 - start)
  else none

/-- A confidence value as consumed by `_build_masked_text`: a number, or a
value on which Python's `float(...)` raises `ValueError` (caught and
skipped by the source). -/
inductive ConfVal : Type where
  | num (v : Int) : ConfVal
  | invalid : ConfVal
deriving DecidableEq

/-- The `for token, confidence in zip(tokens, confidences)` loop of
`_build_masked_text`, threading the evolving masked text, the replacement
count and the monotone search cursor `search_start`. -/
def buildLoop (threshold : Int) :
    List (List Char × ConfVal) → List Char → Nat → Nat → List Char × Nat
  | [], masked, count, _ => (masked, count)
  | (tok, conf) :: rest, masked, count, searchStart =>
    let token := strip tok
    if token = [] then buildLoop threshold rest masked count searchStart
    else
      match conf with
      | ConfVal.invalid => buildLoop threshold rest masked count searchStart
      | ConfVal.num v =>
        if v < threshold ∧ 0 ≤ v then
          match reSearch masked token (token.all isWordChar) searchStart with
          | some i =>
            buildLoop threshold rest
              (masked.take i ++ unkChars ++ masked.drop (i + token.length))
              (count + 1) (i + unkChars.length)
          | none => buildLoop threshold rest masked count searchStart
        else buildLoop threshold rest masked count searchStart

/-- `_build_masked_text(raw_text, tokens, confidences, threshold)` from
`src/grader/ocr.py`. -/
def _build_masked_text (raw : List Char) (tokens : List (List Char))
    (confidences : List ConfVal) (threshold : Int) : List Char × Nat :=
  buildLoop threshold (tokens.zip confidences) raw 0 0

/-- `CleanupResult` from `src/grader/ai_cleanup.py`. -/
structure CleanupResult : Type where
  restored_text : List Char
  attempts : Nat
  guardrail_triggered : Bool
  guardrail_violated : Bool
deriving DecidableEq

/-- The `for idx, temperature in enumerate(temps, start=1)` loop of
`restore`.  The completion client is a function that may fail (`Except`);
a failure aborts the loop and propagates.  The logger only produces
diagnostics and is not modelled.  After the loop the source re-checks the
guardrail on the last candidate to set `guardrail_violated`. -/
def restoreLoop {E : Type} (masked : List Char)
    (client : List Char → ℚ → Except E (List Char)) :
    List ℚ → Nat → Bool → List Char → Except E CleanupResult
  | [], attempts, triggered, restored =>
    Except.ok ⟨restored, attempts, triggered, !(_guardrail_ok masked restored)⟩
  | temp :: temps, attempts, triggered, _ =>
    match client masked temp with
    | Except.error e => Except.error e
    | Except.ok restored =>
      if _guardrail_ok masked restored then
        Except.ok ⟨restored, attempts + 1,
          if attempts + 1 > 1 then true else triggered, false⟩
      else restoreLoop masked client temps (attempts + 1) true restored

/-- `restore(masked_text, client=...)` from `src/grader/ai_cleanup.py`:
temperatures `[0.2, 0.0]`, initial state `attempts=0`,
`guardrail_triggered=False`, `restored_text=masked_text`. -/
def restore {E : Type} (masked : List Char)
    (client : List Char → ℚ → Except E (List Char)) : Except E CleanupResult :=
  restoreLoop masked client [2/10, 0] 0 false masked

/-- All parts of `ps` are placeholder markers or empty literals (the shape of
the tail of the split once the verifier has jumped its cursor to the end). -/
def allLitsEmpty (ps : List (List Char)) : Bool :=
  ps.all fun p => p == unkChars || p == []

/-- No placeholder part of `ps` is immediately followed by another
placeholder that still has non-empty literal content after it: exactly the
masked texts on which the verifier's placeholder lookahead never jumps the
cursor to the end prematurely. -/
def safeParts : List (List Char) → Bool
  | [] => true
  | p :: rest =>
    (if p = unkChars then
       (if nextLiteral rest = [] then allLitsEmpty rest else true)
     else true)
      && safeParts rest

/-- Number of placeholder parts of a split. -/
def numUnks : List (List Char) → Nat
  | [] => 0
  | p :: ps => (if p = unkChars then 1 else 0) + numUnks ps

/-- Reassemble a split, replacing each placeholder part with the
corresponding filler text (placeholders beyond the filler list are kept as
the marker itself, so no filler list at all reproduces the original text). -/
def substFills : List (List Char) → List (List Char) → List Char
  | [], _ => []
  | p :: ps, fills =>
    if p = unkChars then
      match fills with
      | f :: fs => f ++ substFills ps fs
      | [] => unkChars ++ substFills ps []
    else p ++ substFills ps fills

/-- The shape `regex.split` with a kept separator always produces: literal
pieces (never themselves the separator) alternating with separator
occurrences, starting and ending with a piece. -/
inductive AltParts : List (List Char) → Prop
  | single (t : List Char) (h : t ≠ unkChars) : AltParts [t]
  | cons (t : List Char) (rest : List (List Char)) (h : t ≠ unkChars)
      (hrest : AltParts rest) : AltParts (t :: unkChars :: rest)

/-- `MaskDecomp raw masked occs`: `masked` is obtained from `raw` by
replacing the disjoint substrings `occs`, in left-to-right order, by the
placeholder marker, leaving every other character untouched. -/
inductive MaskDecomp : List Char → List Char → List (List Char) → Prop
  | nil (s : List Char) : MaskDecomp s s []
  | cons (s₀ occ rawRest maskedRest : List Char) (occs : List (List Char))
      (h : MaskDecomp rawRest maskedRest occs) :
      MaskDecomp (s₀ ++ occ ++ rawRest) (s₀ ++ unkChars ++ maskedRest) (occ :: occs)

/-- The stripped texts of those pairs the masker considers maskable:
non-empty after trimming, numeric confidence, non-negative and below the
threshold. -/
def eligibleTokens (threshold : Int) : List (List Char × ConfVal) → List (List Char)
  | [] => []
  | (tok, conf) :: rest =>
    match conf with
    | ConfVal.invalid => eligibleTokens threshold rest
    | ConfVal.num v =>
      if strip tok ≠ [] ∧ v < threshold ∧ 0 ≤ v then
        strip tok :: eligibleTokens threshold rest
      else eligibleTokens threshold rest

/-! ### The find scan -/

theorem isPrefixOf_eq_true {l₁ l₂ : List Char} :
    l₁.isPrefixOf l₂ = true ↔ l₁ <+: l₂ :=
  List.isPrefixOf_iff_prefix

theorem findFromAux_some (hay needle : List Char) :
    ∀ fuel i p, findFromAux hay needle i fuel = some p →
      i ≤ p ∧ needle.isPrefixOf (hay.drop p) = true ∧
        ∀ j, i ≤ j → j < p → needle.isPrefixOf (hay.drop j) = false := by
  intro fuel
  induction fuel with
  | zero => intro i p h; simp [findFromAux] at h
  | succ fuel ih =>
    intro i p h
    simp only [findFromAux] at h
    by_cases hpre : needle.isPrefixOf (hay.drop i) = true
    · simp only [hpre, if_true] at h
      obtain rfl : i = p := by simpa using h
      exact ⟨le_refl _, hpre, fun j hij hjp => absurd hij (by omega)⟩
    · simp only [hpre, if_false] at h
      obtain ⟨h₁, h₂, h₃⟩ := ih (i + 1) p h
      refine ⟨by omega, h₂, fun j hij hjp => ?_⟩
      rcases Nat.eq_or_lt_of_le hij with rfl | hlt
      · exact Bool.eq_false_iff.mpr hpre
      · exact h₃ j (by omega) hjp

theorem findFromAux_reaches (hay needle : List Char) :
    ∀ fuel i j, i ≤ j → j < i + fuel → needle.isPrefixOf (hay.drop j) = true →
      ∃ p, findFromAux hay needle i fuel = some p := by
  intro fuel
  induction fuel with
  | zero => intro i j h₁ h₂ _; omega
  | succ fuel ih =>
    intro i j h₁ h₂ hpre
    simp only [findFromAux]
    by_cases hi : needle.isPrefixOf (hay.drop i) = true
    · exact ⟨i, by simp [hi]⟩
    · rcases Nat.eq_or_lt_of_le h₁ with rfl | hlt
      · exact absurd hpre hi
      · obtain ⟨p, hp⟩ := ih (i + 1) j hlt (by omega) hpre
        exact ⟨p, by simp [hi, hp]⟩

theorem findFrom_some {hay needle : List Char} {start p : Nat}
    (h : findFrom hay needle start = some p) :
    start ≤ p ∧ needle.isPrefixOf (hay.drop p) = true ∧
      ∀ j, start ≤ j → j < p → needle.isPrefixOf (hay.drop j) = false := by
  unfold findFrom at h
  by_cases hs : start ≤ hay.length
  · rw [if_pos hs] at h
    exact findFromAux_some hay needle _ start p h
  · rw [if_neg hs] at h
    exact absurd h (by simp)

theorem findFrom_of_occurs {hay needle : List Char} {start j : Nat}
    (hsj : start ≤ j) (hj : j ≤ hay.length)
    (hpre : needle.isPrefixOf (hay.drop j) = true) :
    ∃ p, findFrom hay needle start = some p ∧ p ≤ j := by
  have hs : start ≤ hay.length := le_trans hsj hj
  obtain ⟨p, hp⟩ :=
    findFromAux_reaches hay needle (hay.length + 1 - start) start j hsj (by omega) hpre
  have hfind : findFrom hay needle start = some p := by
    unfold findFrom; rw [if_pos hs]; exact hp
  obtain ⟨h₁, h₂, h₃⟩ := findFrom_some hfind
  refine ⟨p, hfind, ?_⟩
  by_contra hcon
  exact absurd hpre (by simp [h₃ j hsj (by omega)])

/-- An occurrence of a non-empty needle fits inside the haystack. -/
theorem occurs_bound {hay needle : List Char} {p : Nat} (hne : needle ≠ [])
    (h : needle.isPrefixOf (hay.drop p) = true) :
    p + needle.length ≤ hay.length := by
  have hpre := isPrefixOf_eq_true.mp h
  have hlen := hpre.length_le
  rw [List.length_drop] at hlen
  have : 0 < needle.length := List.length_pos.mpr hne
  omega

/-- A find in `c` extended with a suffix returns the same position: the
suffix can neither create an earlier occurrence (it would overlap the found
one inside `c`) nor change the found one. -/
theorem findFrom_append {c s needle : List Char} {start p : Nat} (hne : needle ≠ [])
    (h : findFrom c needle start = some p) :
    findFrom (c ++ s) needle start = some p := by
  obtain ⟨hsp, hpre, hmin⟩ := findFrom_some h
  have hbound : p + needle.length ≤ c.length := occurs_bound hne hpre
  have hple : p ≤ c.length := by omega
  have hpre' : needle.isPrefixOf ((c ++ s).drop p) = true := by
    rw [List.drop_append_of_le_length hple]
    exact isPrefixOf_eq_true.mpr
      ((isPrefixOf_eq_true.mp hpre).trans (List.prefix_append _ _))
  obtain ⟨p', hfind', hp'le⟩ :=
    findFrom_of_occurs hsp (by rw [List.length_append]; omega) hpre'
  obtain ⟨hsp', hpre'', _⟩ := findFrom_some hfind'
  rcases Nat.eq_or_lt_of_le hp'le with rfl | hlt
  · exact hfind'
  · exfalso
    have hple' : p' ≤ c.length := by omega
    rw [List.drop_append_of_le_length hple'] at hpre''
    have htake := List.prefix_iff_eq_take.mp (isPrefixOf_eq_true.mp hpre'')
    rw [List.take_append_of_le_length (by rw [List.length_drop]; omega)] at htake
    have : needle.isPrefixOf (c.drop p') = true :=
      isPrefixOf_eq_true.mpr (List.prefix_iff_eq_take.mpr htake)
    exact absurd this (by simp [hmin p' hsp' hlt])

/-! ### The guardrail walk -/

theorem guardrailWalk_nil (restored : List Char) (pos : Nat) :
    guardrailWalk restored [] pos = true := rfl

theorem guardrailWalk_unk (restored : List Char) (rest : List (List Char)) (pos : Nat) :
    guardrailWalk restored (unkChars :: rest) pos =
      if nextLiteral rest = [] then guardrailWalk restored rest restored.length
      else
        match findFrom restored (nextLiteral rest) pos with
        | none => false
        | some p => guardrailWalk restored rest p := by
  simp [guardrailWalk]

theorem guardrailWalk_lit (restored : List Char) {t : List Char} (ht : t ≠ unkChars)
    (rest : List (List Char)) (pos : Nat) :
    guardrailWalk restored (t :: rest) pos =
      if t = [] then guardrailWalk restored rest pos
      else if (restored.drop pos).take t.length = t then
        guardrailWalk restored rest (pos + t.length)
      else false := by
  simp [guardrailWalk, ht]

theorem allLitsEmpty_cons {p : List Char} {ps : List (List Char)} :
    allLitsEmpty (p :: ps) = true ↔
      (p = unkChars ∨ p = []) ∧ allLitsEmpty ps = true := by
  simp [allLitsEmpty]

theorem nextLiteral_of_allLitsEmpty :
    ∀ ps, allLitsEmpty ps = true → nextLiteral ps = [] := by
  intro ps
  induction ps with
  | nil => intro _; rfl
  | cons p rest ih =>
    intro h
    obtain ⟨hp, hrest⟩ := allLitsEmpty_cons.mp h
    rcases hp with rfl | rfl
    · simpa [nextLiteral] using ih hrest
    · simp [nextLiteral, unkChars]

/-- Once every remaining part is a placeholder or an empty literal, the walk
accepts from any cursor position. -/
theorem walk_of_allLitsEmpty (restored : List Char) :
    ∀ ps, allLitsEmpty ps = true → ∀ pos, guardrailWalk restored ps pos = true := by
  intro ps
  induction ps with
  | nil => intro _ pos; exact guardrailWalk_nil restored pos
  | cons p rest ih =>
    intro h pos
    obtain ⟨hp, hrest⟩ := allLitsEmpty_cons.mp h
    rcases hp with rfl | rfl
    · rw [guardrailWalk_unk, if_pos (nextLiteral_of_allLitsEmpty rest hrest)]
      exact ih hrest _
    · rw [guardrailWalk_lit restored (by simp [unkChars]) rest pos, if_pos rfl]
      exact ih hrest pos

/-- If the walk accepts with its cursor already at (or past) the end of the
candidate, every remaining part must be a placeholder or an empty literal. -/
theorem allLitsEmpty_of_walk (c : List Char) :
    ∀ ps pos, c.length ≤ pos → guardrailWalk c ps pos = true →
      allLitsEmpty ps = true := by
  intro ps
  induction ps with
  | nil => intro pos _ _; rfl
  | cons p rest ih =>
    intro pos hpos hwalk
    by_cases hunk : p = unkChars
    · subst hunk
      rw [guardrailWalk_unk] at hwalk
      by_cases hnl : nextLiteral rest = []
      · rw [if_pos hnl] at hwalk
        exact allLitsEmpty_cons.mpr ⟨Or.inl rfl, ih c.length (le_refl _) hwalk⟩
      · rw [if_neg hnl] at hwalk
        rcases hfind : findFrom c (nextLiteral rest) pos with _ | p'
        · rw [hfind] at hwalk; simp at hwalk
        · exfalso
          rw [hfind] at hwalk
          obtain ⟨h₁, h₂, _⟩ := findFrom_some hfind
          have hdrop : c.drop p' = [] := List.drop_eq_nil_of_le (by omega)
          rw [hdrop] at h₂
          exact hnl (List.prefix_nil.mp (isPrefixOf_eq_true.mp h₂))
    · rw [guardrailWalk_lit c hunk rest pos] at hwalk
      by_cases hemp : p = []
      · rw [if_pos hemp] at hwalk
        exact allLitsEmpty_cons.mpr ⟨Or.inr hemp, ih pos hpos hwalk⟩
      · exfalso
        rw [if_neg hemp] at hwalk
        have hdrop : c.drop pos = [] := List.drop_eq_nil_of_le hpos
        rw [hdrop, List.take_nil] at hwalk
        rw [if_neg (fun h => hemp h.symm)] at hwalk
        simp at hwalk

/-- Appending a suffix to an accepted candidate keeps it accepted: each find
returns the same position, literal checks are unaffected, and a
jump-to-the-end only happens when everything after it is vacuous. -/
theorem walk_append (c s : List Char) :
    ∀ ps pos, pos ≤ c.length → guardrailWalk c ps pos = true →
      guardrailWalk (c ++ s) ps pos = true := by
  intro ps
  induction ps with
  | nil => intro pos _ _; exact guardrailWalk_nil _ pos
  | cons p rest ih =>
    intro pos hpos hwalk
    by_cases hunk : p = unkChars
    · subst hunk
      rw [guardrailWalk_unk] at hwalk ⊢
      by_cases hnl : nextLiteral rest = []
      · rw [if_pos hnl] at hwalk ⊢
        exact walk_of_allLitsEmpty _ rest
          (allLitsEmpty_of_walk c rest c.length (le_refl _) hwalk) _
      · rw [if_neg hnl] at hwalk ⊢
        rcases hfind : findFrom c (nextLiteral rest) pos with _ | p'
        · rw [hfind] at hwalk; simp at hwalk
        · rw [hfind] at hwalk
          rw [findFrom_append hnl hfind]
          obtain ⟨_, hpre, _⟩ := findFrom_some hfind
          have := occurs_bound hnl hpre
          exact ih p' (by omega) hwalk
    · rw [guardrailWalk_lit c hunk rest pos] at hwalk
      rw [guardrailWalk_lit (c ++ s) hunk rest pos]
      by_cases hemp : p = []
      · rw [if_pos hemp] at hwalk ⊢
        exact ih pos hpos hwalk
      · rw [if_neg hemp] at hwalk ⊢
        by_cases hlit : (c.drop pos).take p.length = p
        · have hlen : p.length ≤ (c.drop pos).length := by
            have := congrArg List.length hlit
            rw [List.length_take] at this
            omega
          rw [List.length_drop] at hlen
          have hdrop' : (c ++ s).drop pos = c.drop pos ++ s :=
            List.drop_append_of_le_length hpos
          have htake' : ((c ++ s).drop pos).take p.length = p := by
            rw [hdrop', List.take_append_of_le_length (by rw [List.length_drop]; omega)]
            exact hlit
          rw [if_pos hlit] at hwalk
          rw [if_pos htake']
          exact ih (pos + p.length) (by omega) hwalk
        · rw [if_neg hlit] at hwalk; simp at hwalk

/-! ### Shape of the split and placeholder substitution -/

theorem splitPartsAux_nil (fuel : Nat) : splitPartsAux fuel [] = [[]] := by
  cases fuel <;> rfl

theorem unkChars_length : unkChars.length = 7 := rfl

theorem numUnks_nil : numUnks [] = 0 := rfl

theorem numUnks_cons_unk (ps : List (List Char)) :
    numUnks (unkChars :: ps) = 1 + numUnks ps := by simp [numUnks]

theorem numUnks_cons_lit {t : List Char} (ht : t ≠ unkChars) (ps : List (List Char)) :
    numUnks (t :: ps) = numUnks ps := by simp [numUnks, ht]

theorem substFills_nil (fills : List (List Char)) : substFills [] fills = [] := rfl

theorem substFills_cons_unk (ps : List (List Char)) (f : List Char)
    (fs : List (List Char)) :
    substFills (unkChars :: ps) (f :: fs) = f ++ substFills ps fs := by
  simp [substFills]

theorem substFills_cons_lit {t : List Char} (ht : t ≠ unkChars)
    (ps fills : List (List Char)) :
    substFills (t :: ps) fills = t ++ substFills ps fills := by
  simp [substFills, ht]

/-- Splitting decomposes the text: concatenating the parts (the separator
parts are the separator itself) gives back the input. -/
theorem splitPartsAux_join :
    ∀ fuel s, s.length ≤ fuel → (splitPartsAux fuel s).flatten = s := by
  intro fuel
  induction fuel with
  | zero =>
    intro s hs
    obtain rfl : s = [] := List.eq_nil_of_length_eq_zero (by omega)
    simp [splitPartsAux_nil]
  | succ fuel ih =>
    intro s hs
    rcases s with _ | ⟨c, rest⟩
    · simp [splitPartsAux_nil]
    · by_cases hpre : unkChars.isPrefixOf (c :: rest) = true
      · simp only [splitPartsAux]
        rw [if_pos hpre]
        have hdroplen : ((c :: rest).drop unkChars.length).length ≤ fuel := by
          rw [List.length_drop, unkChars_length]
          simp only [List.length_cons] at hs ⊢
          omega
        simp only [List.flatten_cons, List.nil_append]
        rw [ih _ hdroplen]
        have htake := List.prefix_iff_eq_take.mp (isPrefixOf_eq_true.mp hpre)
        conv_rhs => rw [← List.take_append_drop unkChars.length (c :: rest), ← htake]
      · simp only [splitPartsAux]
        rw [if_neg hpre]
        have hrest : rest.length ≤ fuel := by
          simp only [List.length_cons] at hs; omega
        have hjoin := ih rest hrest
        rcases hsplit : splitPartsAux fuel rest with _ | ⟨t, ps⟩
        · rw [hsplit] at hjoin; simp at hjoin
          subst hjoin
          rw [splitPartsAux_nil] at hsplit
          exact absurd hsplit (by simp)
        · rw [hsplit] at hjoin
          simp only [List.flatten_cons] at hjoin ⊢
          rw [List.cons_append, hjoin]

/-- The split has the alternating piece/separator shape, and no piece is the
separator itself. -/
theorem splitPartsAux_alt :
    ∀ fuel s, s.length ≤ fuel → AltParts (splitPartsAux fuel s) := by
  intro fuel
  induction fuel with
  | zero =>
    intro s hs
    obtain rfl : s = [] := List.eq_nil_of_length_eq_zero (by omega)
    rw [splitPartsAux_nil]
    exact AltParts.single [] (by simp [unkChars])
  | succ fuel ih =>
    intro s hs
    rcases s with _ | ⟨c, rest⟩
    · rw [splitPartsAux_nil]
      exact AltParts.single [] (by simp [unkChars])
    · by_cases hpre : unkChars.isPrefixOf (c :: rest) = true
      · simp only [splitPartsAux]
        rw [if_pos hpre]
        have hdroplen : ((c :: rest).drop unkChars.length).length ≤ fuel := by
          rw [List.length_drop, unkChars_length]
          simp only [List.length_cons] at hs ⊢
          omega
        exact AltParts.cons [] _ (by simp [unkChars]) (ih _ hdroplen)
      · simp only [splitPartsAux]
        rw [if_neg hpre]
        have hrest : rest.length ≤ fuel := by
          simp only [List.length_cons] at hs; omega
        have halt := ih rest hrest
        have hjoin := splitPartsAux_join fuel rest hrest
        rcases hsplit : splitPartsAux fuel rest with _ | ⟨t, ps⟩
        · rw [hsplit] at halt; cases halt
        · rw [hsplit] at halt hjoin
          have hjoin' : t ++ ps.flatten = rest := by
            simpa [List.flatten_cons] using hjoin
          have hct : (c :: t) ≠ unkChars := by
            intro hct
            apply hpre
            apply isPrefixOf_eq_true.mpr
            exact ⟨ps.flatten, by rw [← hct, List.cons_append, hjoin']⟩
          cases halt with
          | single t' h => exact AltParts.single (c :: t) hct
          | cons t' rest' h hrest' => exact AltParts.cons (c :: t) rest' hct hrest'

theorem splitParts_join (s : List Char) : (splitParts s).flatten = s :=
  splitPartsAux_join s.length s (le_refl _)

theorem splitParts_alt (s : List Char) : AltParts (splitParts s) :=
  splitPartsAux_alt s.length s (le_refl _)

/-- Filling every placeholder with the marker itself reproduces the text. -/
theorem substFills_replicate_unk :
    ∀ ps, substFills ps (List.replicate (numUnks ps) unkChars) = ps.flatten := by
  intro ps
  induction ps with
  | nil => rfl
  | cons p rest ih =>
    by_cases hp : p = unkChars
    · subst hp
      rw [numUnks_cons_unk, show (1 + numUnks rest) = numUnks rest + 1 by omega,
        List.replicate_succ, substFills_cons_unk, List.flatten_cons, ih]
    · rw [numUnks_cons_lit hp, substFills_cons_lit hp, List.flatten_cons, ih]

/-- With every literal part empty, filling all placeholders with nothing
produces the empty text. -/
theorem substFills_empty_of_allLitsEmpty :
    ∀ ps, allLitsEmpty ps = true →
      substFills ps (List.replicate (numUnks ps) []) = [] := by
  intro ps
  induction ps with
  | nil => intro _; rfl
  | cons p rest ih =>
    intro h
    obtain ⟨hp, hrest⟩ := allLitsEmpty_cons.mp h
    rcases hp with rfl | rfl
    · rw [numUnks_cons_unk, show (1 + numUnks rest) = numUnks rest + 1 by omega,
        List.replicate_succ, substFills_cons_unk, ih hrest]
      rfl
    · have hne : ([] : List Char) ≠ unkChars := by simp [unkChars]
      rw [numUnks_cons_lit hne, substFills_cons_lit hne, List.nil_append]
      exact ih hrest

theorem nextLiteral_cons_lit {t : List Char} (ht : t ≠ unkChars)
    (ps : List (List Char)) : nextLiteral (t :: ps) = t := by
  simp [nextLiteral, ht]

theorem safeParts_cons_lit {t : List Char} (ht : t ≠ unkChars)
    (ps : List (List Char)) : safeParts (t :: ps) = safeParts ps := by
  simp [safeParts, ht]

theorem safeParts_cons_unk (ps : List (List Char)) :
    safeParts (unkChars :: ps) = true ↔
      (nextLiteral ps = [] → allLitsEmpty ps = true) ∧ safeParts ps = true := by
  simp only [safeParts, if_pos rfl, Bool.and_eq_true]
  by_cases hnl : nextLiteral ps = []
  · rw [if_pos hnl]
    exact ⟨fun ⟨h1, h2⟩ => ⟨fun _ => h1, h2⟩, fun ⟨h1, h2⟩ => ⟨h1 hnl, h2⟩⟩
  · rw [if_neg hnl]
    exact ⟨fun ⟨_, h2⟩ => ⟨fun h => absurd h hnl, h2⟩, fun ⟨_, h2⟩ => ⟨rfl, h2⟩⟩

/-- Main acceptance lemma: on a well-shaped split without premature
jump-to-end (no placeholder immediately followed by a placeholder that still
has literal content after it), the walk accepts any candidate that keeps the
literal pieces intact and in order, with arbitrary filler in the placeholder
slots and arbitrary trailing text. -/
theorem walk_accepts (restored : List Char) :
    ∀ ps, AltParts ps → ∀ fills pre tail pos,
      safeParts ps = true →
      fills.length = numUnks ps →
      restored = pre ++ substFills ps fills ++ tail →
      pos ≤ pre.length →
      (∀ t rest, ps = t :: rest → t.isPrefixOf (restored.drop pos) = true) →
      guardrailWalk restored ps pos = true := by
  intro ps halt
  induction halt with
  | single t ht =>
    intro fills pre tail pos _ _ _ _ hhead
    rw [guardrailWalk_lit restored ht [] pos]
    by_cases hemp : t = []
    · rw [if_pos hemp]; exact guardrailWalk_nil restored pos
    · rw [if_neg hemp]
      have htake : (restored.drop pos).take t.length = t :=
        (List.prefix_iff_eq_take.mp
          (isPrefixOf_eq_true.mp (hhead t [] rfl))).symm
      rw [if_pos htake]
      exact guardrailWalk_nil restored _
  | cons t rest ht hrest ih =>
    intro fills pre tail pos hsafe hlen hres hpos hhead
    have hlen' : fills.length = 1 + numUnks rest := by
      rw [hlen, numUnks_cons_lit ht, numUnks_cons_unk]
    obtain ⟨f, fs, rfl⟩ : ∃ f fs, fills = f :: fs := by
      cases fills with
      | nil => simp only [List.length_nil] at hlen'; omega
      | cons f fs => exact ⟨f, fs, rfl⟩
    have hfs : fs.length = numUnks rest := by
      simp only [List.length_cons] at hlen'; omega
    rw [substFills_cons_lit ht, substFills_cons_unk] at hres
    have hsafe1 : safeParts (unkChars :: rest) = true := by
      rw [safeParts_cons_lit ht] at hsafe; exact hsafe
    obtain ⟨hcond, hsafer⟩ := (safeParts_cons_unk rest).mp hsafe1
    obtain ⟨t₁, rest', hrest_eq, ht₁⟩ :
        ∃ t₁ rest', rest = t₁ :: rest' ∧ t₁ ≠ unkChars := by
      cases hrest with
      | single a h => exact ⟨a, [], rfl, h⟩
      | cons a r h hr => exact ⟨a, unkChars :: r, rfl, h⟩
    have hnl_eq : nextLiteral rest = t₁ := by rw [hrest_eq, nextLiteral_cons_lit ht₁]
    suffices haux : ∀ pos₁, pos₁ ≤ (pre ++ t).length →
        guardrailWalk restored (unkChars :: rest) pos₁ = true by
      rw [guardrailWalk_lit restored ht (unkChars :: rest) pos]
      by_cases hemp : t = []
      · rw [if_pos hemp]
        exact haux pos (by simp [hemp]; omega)
      · rw [if_neg hemp]
        have htake : (restored.drop pos).take t.length = t :=
          (List.prefix_iff_eq_take.mp
            (isPrefixOf_eq_true.mp (hhead t _ rfl))).symm
        rw [if_pos htake]
        exact haux (pos + t.length) (by simp [List.length_append]; omega)
    intro pos₁ hpos₁
    rw [guardrailWalk_unk]
    by_cases ht₁emp : t₁ = []
    · rw [hnl_eq, ht₁emp, if_pos rfl]
      exact walk_of_allLitsEmpty restored rest
        (hcond (by rw [hnl_eq, ht₁emp])) _
    · rw [hnl_eq, if_neg ht₁emp]
      have hsub' : substFills rest fs = t₁ ++ substFills rest' fs := by
        rw [hrest_eq, substFills_cons_lit ht₁]
      have hres' : restored = (pre ++ t ++ f) ++ (t₁ ++ (substFills rest' fs ++ tail)) := by
        rw [hres, hsub']; simp [List.append_assoc]
      have hoccur : t₁.isPrefixOf (restored.drop (pre ++ t ++ f).length) = true := by
        rw [hres', List.drop_left]
        exact isPrefixOf_eq_true.mpr ⟨_, rfl⟩
      have hpos₁le : pos₁ ≤ (pre ++ t ++ f).length := by
        simp only [List.length_append] at hpos₁ ⊢; omega
      have hlenle : (pre ++ t ++ f).length ≤ restored.length := by
        rw [hres']; simp only [List.length_append]; omega
      obtain ⟨p, hfind, hple⟩ := findFrom_of_occurs hpos₁le hlenle hoccur
      rw [hfind]
      obtain ⟨hp1, hp2, _⟩ := findFrom_some hfind
      apply ih fs (pre ++ t ++ f) tail p hsafer hfs ?_ hple ?_
      · rw [hres]; simp [List.append_assoc]
      · intro a b hab
        rw [hrest_eq] at hab
        injection hab with h₁ h₂
        subst h₁
        exact hp2

/-- Completeness of the walk: from the cursor on, any accepted candidate
decomposes into the remaining literal pieces intact and in order, with some
(possibly empty) filler in every placeholder slot, possibly followed by
trailing text the walk never looks at. -/
theorem walk_complete (restored : List Char) :
    ∀ ps pos, pos ≤ restored.length → guardrailWalk restored ps pos = true →
      ∃ fills rest, fills.length = numUnks ps ∧
        restored.drop pos = substFills ps fills ++ rest := by
  intro ps
  induction ps with
  | nil =>
    intro pos _ _
    exact ⟨[], restored.drop pos, rfl, by rw [substFills_nil, List.nil_append]⟩
  | cons p rest ih =>
    intro pos hpos hwalk
    by_cases hunk : p = unkChars
    · subst hunk
      rw [guardrailWalk_unk] at hwalk
      by_cases hnl : nextLiteral rest = []
      · rw [if_pos hnl] at hwalk
        have hall : allLitsEmpty rest = true :=
          allLitsEmpty_of_walk restored rest restored.length (le_refl _) hwalk
        refine ⟨restored.drop pos :: List.replicate (numUnks rest) [], [], ?_, ?_⟩
        · simp only [List.length_cons, List.length_replicate, numUnks_cons_unk]
          omega
        · rw [substFills_cons_unk, substFills_empty_of_allLitsEmpty rest hall,
            List.append_nil, List.append_nil]
      · rw [if_neg hnl] at hwalk
        rcases hfind : findFrom restored (nextLiteral rest) pos with _ | p'
        · rw [hfind] at hwalk; simp at hwalk
        · rw [hfind] at hwalk
          obtain ⟨hp1, hp2, _⟩ := findFrom_some hfind
          have hp'le : p' ≤ restored.length := by
            have := occurs_bound hnl hp2; omega
          obtain ⟨fs, rest', hfs, hdec⟩ := ih p' hp'le hwalk
          refine ⟨(restored.drop pos).take (p' - pos) :: fs, rest', ?_, ?_⟩
          · simp only [List.length_cons, numUnks_cons_unk, hfs]; omega
          · rw [substFills_cons_unk]
            have hdd : (restored.drop pos).drop (p' - pos) = restored.drop p' := by
              rw [List.drop_drop]; congr 1; omega
            have hsplit : restored.drop pos =
                (restored.drop pos).take (p' - pos) ++ restored.drop p' := by
              conv_lhs => rw [← List.take_append_drop (p' - pos) (restored.drop pos)]
              rw [hdd]
            rw [List.append_assoc, ← hdec]
            exact hsplit
    · rw [guardrailWalk_lit restored hunk rest pos] at hwalk
      by_cases hemp : p = []
      · rw [if_pos hemp] at hwalk
        obtain ⟨fs, rest', hfs, hdec⟩ := ih pos hpos hwalk
        exact ⟨fs, rest', by rw [numUnks_cons_lit hunk]; exact hfs,
          by rw [substFills_cons_lit hunk, hemp, List.nil_append]; exact hdec⟩
      · rw [if_neg hemp] at hwalk
        by_cases htake : (restored.drop pos).take p.length = p
        · rw [if_pos htake] at hwalk
          have hlen : p.length ≤ restored.length - pos := by
            have := congrArg List.length htake
            rw [List.length_take, List.length_drop] at this; omega
          obtain ⟨fs, rest', hfs, hdec⟩ := ih (pos + p.length) (by omega) hwalk
          refine ⟨fs, rest', by rw [numUnks_cons_lit hunk]; exact hfs, ?_⟩
          rw [substFills_cons_lit hunk]
          have hdd : (restored.drop pos).drop p.length = restored.drop (pos + p.length) := by
            rw [List.drop_drop]
          have hsplit : restored.drop pos = p ++ restored.drop (pos + p.length) := by
            conv_lhs => rw [← List.take_append_drop p.length (restored.drop pos)]
            rw [htake, hdd]
          rw [List.append_assoc, ← hdec]
          exact hsplit
        · rw [if_neg htake] at hwalk; simp at hwalk

/-! ### The masker's search -/

theorem searchAux_some (hay pat : List Char) (word : Bool) :
    ∀ fuel i p, searchAux hay pat word i fuel = some p →
      i ≤ p ∧ matchAt hay pat word p = true := by
  intro fuel
  induction fuel with
  | zero => intro i p h; simp [searchAux] at h
  | succ fuel ih =>
    intro i p h
    simp only [searchAux] at h
    by_cases hm : matchAt hay pat word i = true
    · rw [if_pos hm] at h
      obtain rfl : i = p := by simpa using h
      exact ⟨le_refl _, hm⟩
    · rw [if_neg hm] at h
      obtain ⟨h1, h2⟩ := ih (i + 1) p h
      exact ⟨by omega, h2⟩

theorem reSearch_some {hay pat : List Char} {word : Bool} {start p : Nat}
    (h : reSearch hay pat word start = some p) :
    start ≤ p ∧ matchAt hay pat word p = true := by
  unfold reSearch at h
  by_cases hs : start ≤ hay.length
  · rw [if_pos hs] at h
    exact searchAux_some hay pat word _ start p h
  · rw [if_neg hs] at h
    exact absurd h (by simp)

theorem matchAt_isPrefixOf {hay pat : List Char} {word : Bool} {i : Nat}
    (h : matchAt hay pat word i = true) : pat.isPrefixOf (hay.drop i) = true := by
  simp only [matchAt, Bool.and_eq_true] at h
  exact h.1

/-! ### The masking decomposition -/

theorem MaskDecomp.append_suffix {r m : List Char} {occs : List (List Char)}
    (h : MaskDecomp r m occs) : ∀ suf, MaskDecomp (r ++ suf) (m ++ suf) occs := by
  induction h with
  | nil s => intro suf; exact MaskDecomp.nil (s ++ suf)
  | cons s₀ occ rawRest maskedRest occs h ih =>
    intro suf
    have h2 := MaskDecomp.cons s₀ occ (rawRest ++ suf) (maskedRest ++ suf) occs (ih suf)
    simpa [List.append_assoc] using h2

theorem MaskDecomp.snoc {r m : List Char} {occs : List (List Char)}
    (h : MaskDecomp r m occs) : ∀ u occ,
      MaskDecomp (r ++ u ++ occ) (m ++ u ++ unkChars) (occs ++ [occ]) := by
  induction h with
  | nil s =>
    intro u occ
    have h2 := MaskDecomp.cons (s ++ u) occ [] [] [] (MaskDecomp.nil [])
    simpa [List.append_assoc] using h2
  | cons s₀ occ₀ rawRest maskedRest occs h ih =>
    intro u occ
    have h2 := MaskDecomp.cons s₀ occ₀ (rawRest ++ u ++ occ)
      (maskedRest ++ u ++ unkChars) (occs ++ [occ]) (ih u occ)
    simpa [List.append_assoc] using h2

theorem buildLoop_nil (threshold : Int) (masked : List Char) (count ss : Nat) :
    buildLoop threshold [] masked count ss = (masked, count) := rfl

theorem buildLoop_skip_strip {tok : List Char} (hstrip : strip tok = [])
    (threshold : Int) (conf : ConfVal) (rest : List (List Char × ConfVal))
    (masked : List Char) (count ss : Nat) :
    buildLoop threshold ((tok, conf) :: rest) masked count ss =
      buildLoop threshold rest masked count ss := by
  simp [buildLoop, hstrip]

theorem buildLoop_skip_invalid {tok : List Char} (hstrip : strip tok ≠ [])
    (threshold : Int) (rest : List (List Char × ConfVal))
    (masked : List Char) (count ss : Nat) :
    buildLoop threshold ((tok, ConfVal.invalid) :: rest) masked count ss =
      buildLoop threshold rest masked count ss := by
  simp [buildLoop, hstrip]

theorem buildLoop_skip_range {tok : List Char} (hstrip : strip tok ≠ [])
    {threshold v : Int} (hv : ¬(v < threshold ∧ 0 ≤ v))
    (rest : List (List Char × ConfVal)) (masked : List Char) (count ss : Nat) :
    buildLoop threshold ((tok, ConfVal.num v) :: rest) masked count ss =
      buildLoop threshold rest masked count ss := by
  simp [buildLoop, hstrip, hv]

theorem buildLoop_step_found {tok : List Char} (hstrip : strip tok ≠ [])
    {threshold v : Int} (hv : v < threshold ∧ 0 ≤ v)
    (rest : List (List Char × ConfVal)) (masked : List Char) (count ss i : Nat)
    (hsearch : reSearch masked (strip tok) ((strip tok).all isWordChar) ss = some i) :
    buildLoop threshold ((tok, ConfVal.num v) :: rest) masked count ss =
      buildLoop threshold rest
        (masked.take i ++ unkChars ++ masked.drop (i + (strip tok).length))
        (count + 1) (i + unkChars.length) := by
  simp [buildLoop, hstrip, hv.1, hv.2, hsearch]

theorem buildLoop_step_notfound {tok : List Char} (hstrip : strip tok ≠ [])
    {threshold v : Int} (hv : v < threshold ∧ 0 ≤ v)
    (rest : List (List Char × ConfVal)) (masked : List Char) (count ss : Nat)
    (hsearch : reSearch masked (strip tok) ((strip tok).all isWordChar) ss = none) :
    buildLoop threshold ((tok, ConfVal.num v) :: rest) masked count ss =
      buildLoop threshold rest masked count ss := by
  simp [buildLoop, hstrip, hv.1, hv.2, hsearch]

/-- Invariant of the masking loop: it only ever rewrites the portion of the
text after the cursor, replacing eligible token occurrences (taken in the
supplied order) by the placeholder, and counts exactly the replacements. -/
theorem buildLoop_decomp (threshold : Int) :
    ∀ pairs (rawPre mPre suf : List Char) (occs : List (List Char)) (n : Nat),
      MaskDecomp rawPre mPre occs →
      ∃ occs',
        MaskDecomp (rawPre ++ suf)
          (buildLoop threshold pairs (mPre ++ suf) n mPre.length).1 (occs ++ occs') ∧
        (buildLoop threshold pairs (mPre ++ suf) n mPre.length).2 = n + occs'.length ∧
        occs'.Sublist (eligibleTokens threshold pairs) := by
  intro pairs
  induction pairs with
  | nil =>
    intro rawPre mPre suf occs n hdec
    refine ⟨[], ?_, ?_, List.nil_sublist _⟩
    · rw [buildLoop_nil]
      simpa using hdec.append_suffix suf
    · rw [buildLoop_nil]; simp
  | cons pair rest ih =>
    obtain ⟨tok, conf⟩ := pair
    intro rawPre mPre suf occs n hdec
    by_cases hstrip : strip tok = []
    · rw [buildLoop_skip_strip hstrip]
      obtain ⟨occs', h1, h2, h3⟩ := ih rawPre mPre suf occs n hdec
      refine ⟨occs', h1, h2, ?_⟩
      cases conf with
      | invalid => exact h3
      | num v =>
        simp only [eligibleTokens]
        rw [if_neg (by simp [hstrip])]
        exact h3
    · cases conf with
      | invalid =>
        rw [buildLoop_skip_invalid hstrip]
        exact ih rawPre mPre suf occs n hdec
      | num v =>
        by_cases hv : v < threshold ∧ 0 ≤ v
        · rcases hsearch : reSearch (mPre ++ suf) (strip tok)
              ((strip tok).all isWordChar) mPre.length with _ | i
          · rw [buildLoop_step_notfound hstrip hv rest _ n mPre.length hsearch]
            obtain ⟨occs', h1, h2, h3⟩ := ih rawPre mPre suf occs n hdec
            refine ⟨occs', h1, h2, ?_⟩
            simp only [eligibleTokens]
            rw [if_pos ⟨hstrip, hv⟩]
            exact h3.cons _
          · rw [buildLoop_step_found hstrip hv rest _ n mPre.length i hsearch]
            set token := strip tok with htok
            obtain ⟨hile, hmatch⟩ := reSearch_some hsearch
            have hpre := matchAt_isPrefixOf hmatch
            have hbound : i + token.length ≤ (mPre ++ suf).length :=
              occurs_bound hstrip hpre
            rw [List.length_append] at hbound
            have htokpos : 0 < token.length := List.length_pos.mpr hstrip
            set j := i - mPre.length with hj
            have hieq : i = mPre.length + j := by omega
            have hjlt : j < suf.length := by omega
            have hdropj : (mPre ++ suf).drop i = suf.drop j := by
              rw [hieq]; simp [List.drop_append]
            have htkpre : token.isPrefixOf (suf.drop j) = true := by
              rw [← hdropj]; exact hpre
            have hsufdec : suf.drop j = token ++ suf.drop (j + token.length) := by
              have h1 := (List.prefix_iff_eq_take.mp
                (isPrefixOf_eq_true.mp htkpre))
              have h2 : (suf.drop j).drop token.length = suf.drop (j + token.length) := by
                rw [List.drop_drop]
              conv_lhs => rw [← List.take_append_drop token.length (suf.drop j)]
              rw [← h1, h2]
            have hsuf : suf = suf.take j ++ token ++ suf.drop (j + token.length) := by
              conv_lhs => rw [← List.take_append_drop j suf]
              rw [hsufdec, List.append_assoc]
            have htakej : (suf.take j).length = j :=
              List.length_take_of_le (by omega)
            have hmasked : (mPre ++ suf).take i ++ unkChars ++
                (mPre ++ suf).drop (i + token.length) =
                (mPre ++ suf.take j ++ unkChars) ++ suf.drop (j + token.length) := by
              have ht : (mPre ++ suf).take i = mPre ++ suf.take j := by
                rw [hieq]; simp [List.take_append]
              have hd : (mPre ++ suf).drop (i + token.length) =
                  suf.drop (j + token.length) := by
                rw [show i + token.length = mPre.length + (j + token.length) by omega]
                simp [List.drop_append]
              rw [ht, hd]
              try simp [List.append_assoc]
            have hss : i + unkChars.length = (mPre ++ suf.take j ++ unkChars).length := by
              simp only [List.length_append, htakej]
              omega
            rw [hmasked, hss]
            obtain ⟨occs'', h1, h2, h3⟩ := ih (rawPre ++ suf.take j ++ token)
              (mPre ++ suf.take j ++ unkChars) (suf.drop (j + token.length))
              (occs ++ [token]) (n + 1) (hdec.snoc (suf.take j) token)
            refine ⟨token :: occs'', ?_, ?_, ?_⟩
            · have hraweq : rawPre ++ suf.take j ++ token ++ suf.drop (j + token.length) =
                  rawPre ++ suf := by
                conv_rhs => rw [hsuf]
                simp [List.append_assoc]
              rw [hraweq] at h1
              have hocceq : occs ++ [token] ++ occs'' = occs ++ token :: occs'' := by
                simp
              rw [hocceq] at h1
              exact h1
            · rw [h2]; simp only [List.length_cons]; omega
            · simp only [eligibleTokens]
              rw [if_pos ⟨hstrip, hv⟩]
              exact h3.cons₂ _
        · rw [buildLoop_skip_range hstrip hv]
          obtain ⟨occs', h1, h2, h3⟩ := ih rawPre mPre suf occs n hdec
          refine ⟨occs', h1, h2, ?_⟩
          simp only [eligibleTokens]
          rw [if_neg (by tauto)]
          exact h3

/-! ### Claims -/

/-- C1 counterexample: the masked text `[[UNK]][[UNK]]x` (two adjacent
placeholders followed by a literal) with non-empty fillers `a`, `b` yields
the candidate `abx`, which keeps the only literal segment `x` intact and in
order, yet `_guardrail_ok` rejects it: the first placeholder's lookahead
finds the empty piece between the two placeholders, jumps the cursor to the
end of the candidate, and the subsequent find of `x` fails. -/
theorem guardrail_containment_law_counterexample :
    substFills (splitParts "[[UNK]][[UNK]]x".data) ["a".data, "b".data] = "abx".data ∧
    _guardrail_ok "[[UNK]][[UNK]]x".data "abx".data = false := by
  constructor <;> decide

/-- C1 (amended): the guardrail containment law holds for every masked text
in which no placeholder is immediately followed by another placeholder that
still has non-empty literal content after it (`safeParts`): any candidate
obtained by substituting each placeholder with arbitrary (in particular
non-empty) filler while keeping every literal segment intact and in order is
accepted by `_guardrail_ok`. -/
theorem guardrail_containment_law (M : List Char) (fills : List (List Char))
    (hsafe : safeParts (splitParts M) = true)
    (hlen : fills.length = numUnks (splitParts M))
    (hne : ∀ f ∈ fills, f ≠ []) :
    _guardrail_ok M (substFills (splitParts M) fills) = true := by
  unfold _guardrail_ok
  by_cases heq : M = substFills (splitParts M) fills
  · rw [if_pos heq]
  · rw [if_neg heq]
    apply walk_accepts (substFills (splitParts M) fills) (splitParts M)
      (splitParts_alt M) fills [] [] 0 hsafe hlen (by simp) (by simp)
    intro t rest hts
    have halt := splitParts_alt M
    rw [hts] at halt
    have ht : t ≠ unkChars := by
      cases halt with
      | single a h => exact h
      | cons a r h hr => exact h
    rw [List.drop_zero, hts, substFills_cons_lit ht]
    exact isPrefixOf_eq_true.mpr ⟨_, rfl⟩

/-- C1 witness: the spec's own scenario, `Hello [[UNK]] world` filled with
`friend`, is accepted. -/
theorem guardrail_containment_law_witness :
    _guardrail_ok "Hello [[UNK]] world".data
      (substFills (splitParts "Hello [[UNK]] world".data) ["friend".data]) = true :=
  guardrail_containment_law "Hello [[UNK]] world".data ["friend".data]
    (by decide) (by decide) (by decide)

/-- C2 counterexample: appending text after the final literal segment is
claimed to make `verify` return false, but the verifier never checks that
its cursor reached the end of the candidate: `Hello friend worldZZZ` is
accepted against `Hello [[UNK]] world` although `ZZZ` is inserted outside
any placeholder region. -/
theorem guardrail_tamper_law_counterexample :
    _guardrail_ok "Hello [[UNK]] world".data "Hello friend worldZZZ".data = true := by
  decide

/-- C2 (amended): the tamper law holds except for text appended after the
final literal segment: every accepted candidate consists of the masked
text's literal segments, byte-identical and in their original order,
with each placeholder replaced by some (possibly empty) filler, possibly
followed by extra trailing text.  Contrapositive: a candidate that alters,
deletes or reorders a literal segment, or inserts text before or between
the literal segments outside the placeholder slots, is rejected. -/
theorem guardrail_tamper_law (M C : List Char) (h : _guardrail_ok M C = true) :
    ∃ fills rest, fills.length = numUnks (splitParts M) ∧
      C = substFills (splitParts M) fills ++ rest := by
  unfold _guardrail_ok at h
  by_cases heq : M = C
  · refine ⟨List.replicate (numUnks (splitParts M)) unkChars, [], by simp, ?_⟩
    rw [substFills_replicate_unk, splitParts_join, List.append_nil, ← heq]
  · rw [if_neg heq] at h
    obtain ⟨fills, rest, h1, h2⟩ := walk_complete C (splitParts M) 0 (Nat.zero_le _) h
    exact ⟨fills, rest, h1, by simpa using h2⟩

/-- C2 witness: the accepted candidate `Hello pal world` decomposes into the
literal segments of `Hello [[UNK]] world` around some filler. -/
theorem guardrail_tamper_law_witness :
    ∃ fills rest,
      fills.length = numUnks (splitParts "Hello [[UNK]] world".data) ∧
      "Hello pal world".data =
        substFills (splitParts "Hello [[UNK]] world".data) fills ++ rest :=
  guardrail_tamper_law "Hello [[UNK]] world".data "Hello pal world".data (by decide)

/-- C3: the masked transcript differs from the source transcript only in
that zero or more disjoint substrings — each the stripped text of one
supplied eligible (non-empty, numeric, non-negative, below-threshold) token,
consumed in the order the tokens were supplied — have each been replaced by
exactly one placeholder marker; all other text is byte-identical, and the
returned count equals the number of replacements. -/
theorem masking_replacement_invariant (raw : List Char) (tokens : List (List Char))
    (confidences : List ConfVal) (threshold : Int) :
    ∃ occs,
      MaskDecomp raw (_build_masked_text raw tokens confidences threshold).1 occs ∧
      (_build_masked_text raw tokens confidences threshold).2 = occs.length ∧
      occs.Sublist (eligibleTokens threshold (tokens.zip confidences)) := by
  obtain ⟨occs', h1, h2, h3⟩ := buildLoop_decomp threshold (tokens.zip confidences)
    [] [] raw [] 0 (MaskDecomp.nil [])
  exact ⟨occs', by simpa [_build_masked_text] using h1,
    by simpa [_build_masked_text] using h2, h3⟩

/-- C9 counterexample: `verify(x, x + s)` is not true for every `x` and `s`:
for `x = [[UNK]][[UNK]]X` we have `verify(x, x) = true` (trivial accept) but
`verify(x, x ++ "z") = false`, refuting both the claimed monotonicity (with
`m = c = x`) and the claimed `verify(x, x + s)` law. -/
theorem verifier_suffix_monotonicity_counterexample :
    _guardrail_ok "[[UNK]][[UNK]]X".data "[[UNK]][[UNK]]X".data = true ∧
    _guardrail_ok "[[UNK]][[UNK]]X".data
      ("[[UNK]][[UNK]]X".data ++ "z".data) = false := by
  constructor <;> decide

/-- C9 (amended): the verifier never checks that its cursor consumed the
candidate to its end, so appended text is accepted, in the following two
forms: (i) an acceptance obtained with `m ≠ c` (i.e. via the walk, not the
trivial equality branch) survives appending any suffix to the candidate;
(ii) `verify(x, x ++ s)` holds whenever no placeholder of `x` is immediately
followed by another placeholder that still has literal content after it. -/
theorem verifier_suffix_monotonicity :
    (∀ m c s : List Char, m ≠ c → _guardrail_ok m c = true →
      _guardrail_ok m (c ++ s) = true) ∧
    (∀ x s : List Char, safeParts (splitParts x) = true →
      _guardrail_ok x (x ++ s) = true) := by
  constructor
  · intro m c s hne h
    unfold _guardrail_ok at h ⊢
    rw [if_neg hne] at h
    by_cases heq : m = c ++ s
    · rw [if_pos heq]
    · rw [if_neg heq]
      exact walk_append c s (splitParts m) 0 (Nat.zero_le _) h
  · intro x s hsafe
    unfold _guardrail_ok
    by_cases heq : x = x ++ s
    · rw [if_pos heq]
    · rw [if_neg heq]
      apply walk_accepts (x ++ s) (splitParts x) (splitParts_alt x)
        (List.replicate (numUnks (splitParts x)) unkChars) [] s 0 hsafe
        (by simp) ?_ (by simp) ?_
      · rw [substFills_replicate_unk, splitParts_join]
        simp
      · intro t rest hts
        have hx : x = t ++ rest.flatten := by
          rw [← splitParts_join x, hts, List.flatten_cons]
        rw [List.drop_zero]
        exact isPrefixOf_eq_true.mpr
          ⟨rest.flatten ++ s, by rw [hx]; simp [List.append_assoc]⟩

/-- C9 witness: trailing junk after a well-formed masked text is accepted. -/
theorem verifier_suffix_monotonicity_witness :
    _guardrail_ok "Hello [[UNK]] world".data
      ("Hello [[UNK]] world".data ++ "z".data) = true :=
  verifier_suffix_monotonicity.2 "Hello [[UNK]] world".data "z".data (by decide)

/-- C4: if the first attempt's candidate passes verification, `restore`
returns it immediately with `attempts = 1` and both violation flags false;
if the first fails and the second passes, `restore` returns the second
candidate with `attempts = 2`, `guardrail_triggered = true` and
`guardrail_violated = false`. -/
theorem orchestrator_escalation_law {E : Type} (masked c1 c2 : List Char)
    (client : List Char → ℚ → Except E (List Char))
    (h1 : client masked (2/10) = Except.ok c1)
    (h2 : client masked 0 = Except.ok c2) :
    (_guardrail_ok masked c1 = true →
      restore masked client = Except.ok ⟨c1, 1, false, false⟩) ∧
    (_guardrail_ok masked c1 = false → _guardrail_ok masked c2 = true →
      restore masked client = Except.ok ⟨c2, 2, true, false⟩) := by
  constructor
  · intro g1
    simp [restore, restoreLoop, h1, g1]
  · intro g1 g2
    simp [restore, restoreLoop, h1, h2, g1, g2]

/-- C4 witness: the spec's scenario 4 — first candidate `Hi friend world`
fails, second candidate `Hello pal world` passes. -/
theorem orchestrator_escalation_law_witness :
    restore (E := Unit) "Hello [[UNK]] world".data
      (fun _ t => if t = 2/10 then Except.ok "Hi friend world".data
        else Except.ok "Hello pal world".data)
    = Except.ok ⟨"Hello pal world".data, 2, true, false⟩ := by
  have h1 : (fun (_ : List Char) (t : ℚ) =>
      if t = 2/10 then Except.ok (ε := Unit) "Hi friend world".data
      else Except.ok "Hello pal world".data) "Hello [[UNK]] world".data (2/10)
      = Except.ok "Hi friend world".data := if_pos rfl
  have h2 : (fun (_ : List Char) (t : ℚ) =>
      if t = 2/10 then Except.ok (ε := Unit) "Hi friend world".data
      else Except.ok "Hello pal world".data) "Hello [[UNK]] world".data 0
      = Except.ok "Hello pal world".data := if_neg (by norm_num)
  exact (orchestrator_escalation_law "Hello [[UNK]] world".data
    "Hi friend world".data "Hello pal world".data _ h1 h2).2 (by decide) (by decide)

/-- C5: if both attempts' candidates fail verification, `restore` still
returns the second attempt's candidate text — the output is never discarded
or replaced by an empty result — with `attempts = 2` and both violation
flags true. -/
theorem orchestrator_exhaustion_law {E : Type} (masked c1 c2 : List Char)
    (client : List Char → ℚ → Except E (List Char))
    (h1 : client masked (2/10) = Except.ok c1)
    (h2 : client masked 0 = Except.ok c2)
    (g1 : _guardrail_ok masked c1 = false)
    (g2 : _guardrail_ok masked c2 = false) :
    restore masked client = Except.ok ⟨c2, 2, true, true⟩ := by
  simp [restore, restoreLoop, h1, h2, g1, g2]

/-- C5 witness: the spec's scenario 5 — both candidates fail, the second is
still returned with both flags set. -/
theorem orchestrator_exhaustion_law_witness :
    restore (E := Unit) "Hello [[UNK]] world".data
      (fun _ t => if t = 2/10 then Except.ok "Hi friend world".data
        else Except.ok "Greetings pal world".data)
    = Except.ok ⟨"Greetings pal world".data, 2, true, true⟩ := by
  have h1 : (fun (_ : List Char) (t : ℚ) =>
      if t = 2/10 then Except.ok (ε := Unit) "Hi friend world".data
      else Except.ok "Greetings pal world".data) "Hello [[UNK]] world".data (2/10)
      = Except.ok "Hi friend world".data := if_pos rfl
  have h2 : (fun (_ : List Char) (t : ℚ) =>
      if t = 2/10 then Except.ok (ε := Unit) "Hi friend world".data
      else Except.ok "Greetings pal world".data) "Hello [[UNK]] world".data 0
      = Except.ok "Greetings pal world".data := if_neg (by norm_num)
  exact orchestrator_exhaustion_law "Hello [[UNK]] world".data
    "Hi friend world".data "Greetings pal world".data _ h1 h2 (by decide) (by decide)

/-- C8: `restore` consults the completion capability only at the two fixed
temperatures — `0.2` (non-zero) first, then `0.0` — and its whole behaviour
is the stated two-attempt schedule: the second call's result matters exactly
when the first candidate fails verification, a failure of the first call
propagates unretried, and two clients agreeing on those two calls produce
identical results (no other call is consulted). -/
theorem orchestrator_schedule_law {E : Type} (masked : List Char) :
    ((2 : ℚ)/10 ≠ 0) ∧
    (∀ client : List Char → ℚ → Except E (List Char),
      restore masked client =
        match client masked (2/10) with
        | Except.error e => Except.error e
        | Except.ok r1 =>
          if _guardrail_ok masked r1 then Except.ok ⟨r1, 1, false, false⟩
          else
            match client masked 0 with
            | Except.error e => Except.error e
            | Except.ok r2 =>
              if _guardrail_ok masked r2 then Except.ok ⟨r2, 2, true, false⟩
              else Except.ok ⟨r2, 2, true, true⟩) ∧
    (∀ (client : List Char → ℚ → Except E (List Char)) (e : E),
      client masked (2/10) = Except.error e →
      restore masked client = Except.error e) ∧
    (∀ client client' : List Char → ℚ → Except E (List Char),
      client masked (2/10) = client' masked (2/10) →
      client masked 0 = client' masked 0 →
      restore masked client = restore masked client') := by
  have heq : ∀ client : List Char → ℚ → Except E (List Char),
      restore masked client =
        match client masked (2/10) with
        | Except.error e => Except.error e
        | Except.ok r1 =>
          if _guardrail_ok masked r1 then Except.ok ⟨r1, 1, false, false⟩
          else
            match client masked 0 with
            | Except.error e => Except.error e
            | Except.ok r2 =>
              if _guardrail_ok masked r2 then Except.ok ⟨r2, 2, true, false⟩
              else Except.ok ⟨r2, 2, true, true⟩ := by
    intro client
    rcases hc1 : client masked (2/10) with e | r1
    · simp [restore, restoreLoop, hc1]
    · by_cases g1 : _guardrail_ok masked r1 = true
      · simp [restore, restoreLoop, hc1, g1]
      · rw [Bool.not_eq_true] at g1
        rcases hc2 : client masked 0 with e | r2
        · simp [restore, restoreLoop, hc1, hc2, g1]
        · by_cases g2 : _guardrail_ok masked r2 = true
          · simp [restore, restoreLoop, hc1, hc2, g1, g2]
          · rw [Bool.not_eq_true] at g2
            simp [restore, restoreLoop, hc1, hc2, g1, g2]
  refine ⟨by norm_num, heq, ?_, ?_⟩
  · intro client e hc1
    rw [heq client, hc1]
  · intro client client' hag1 hag2
    rw [heq client, heq client', hag1, hag2]

/-- C8 witness: a failing completion call propagates out of `restore`. -/
theorem orchestrator_schedule_law_witness :
    restore (E := Unit) "ab".data (fun _ _ => Except.error ()) = Except.error () :=
  (orchestrator_schedule_law (E := Unit) "ab".data).2.2.1
    (fun _ _ => Except.error ()) () rfl

/-- C10: every successfully returned `CleanupResult` satisfies
`attempts ∈ {1, 2}`; `guardrail_violated` implies `guardrail_triggered`;
`guardrail_violated` implies `attempts = 2`; and `attempts = 1` implies both
flags are false. -/
theorem restoration_result_invariant {E : Type} (masked : List Char)
    (client : List Char → ℚ → Except E (List Char)) (r : CleanupResult)
    (h : restore masked client = Except.ok r) :
    (r.attempts = 1 ∨ r.attempts = 2) ∧
    (r.guardrail_violated = true → r.guardrail_triggered = true) ∧
    (r.guardrail_violated = true → r.attempts = 2) ∧
    (r.attempts = 1 → r.guardrail_triggered = false ∧ r.guardrail_violated = false) := by
  rcases hc1 : client masked (2/10) with e | r1
  · rw [restore, restoreLoop, hc1] at h
    exact absurd h (by simp)
  · by_cases g1 : _guardrail_ok masked r1 = true
    · rw [restore, restoreLoop, hc1] at h
      simp only [g1, if_true] at h
      obtain rfl : (⟨r1, 1, false, false⟩ : CleanupResult) = r := by
        simpa using h
      simp
    · rw [Bool.not_eq_true] at g1
      rcases hc2 : client masked 0 with e | r2
      · rw [restore, restoreLoop, hc1] at h
        simp only [g1, Bool.false_eq_true, if_false] at h
        rw [restoreLoop, hc2] at h
        exact absurd h (by simp)
      · by_cases g2 : _guardrail_ok masked r2 = true
        · rw [restore, restoreLoop, hc1] at h
          simp only [g1, Bool.false_eq_true, if_false] at h
          rw [restoreLoop, hc2] at h
          simp only [g2, if_true] at h
          obtain rfl : (⟨r2, 2, true, false⟩ : CleanupResult) = r := by
            simpa using h
          simp
        · rw [Bool.not_eq_true] at g2
          rw [restore, restoreLoop, hc1] at h
          simp only [g1, Bool.false_eq_true, if_false] at h
          rw [restoreLoop, hc2] at h
          simp only [g2, Bool.false_eq_true, if_false] at h
          rw [restoreLoop] at h
          simp only [g2] at h
          obtain rfl : (⟨r2, 2, true, true⟩ : CleanupResult) = r := by
            simpa using h
          simp

/-- C10 witness: the invariant instantiated at a run that accepts its first
candidate. -/
theorem restoration_result_invariant_witness :
    (CleanupResult.attempts ⟨"ab".data, 1, false, false⟩ = 1 ∨
      CleanupResult.attempts ⟨"ab".data, 1, false, false⟩ = 2) :=
  (restoration_result_invariant (E := Unit) "ab".data
    (fun _ _ => Except.ok "ab".data) ⟨"ab".data, 1, false, false⟩ rfl).1

theorem searchAux_false_eq (hay pat : List Char) :
    ∀ fuel i, searchAux hay pat false i fuel = findFromAux hay pat i fuel := by
  intro fuel
  induction fuel with
  | zero => intro i; rfl
  | succ fuel ih =>
    intro i
    by_cases hp : pat.isPrefixOf (hay.drop i) = true
    · simp [searchAux, findFromAux, matchAt, hp]
    · simp [searchAux, findFromAux, matchAt, hp, ih]

/-- C6: when the (stripped) token consists solely of word characters the
masker searches with `\b...\b`, so any replacement position has a word
boundary on both sides — a word token never matches mid-word inside another
word; a token containing non-word characters is searched as a plain literal
substring, i.e. the search coincides with a plain find.  The last conjunct
ties `_build_masked_text` to this search: an eligible single token is
replaced exactly at the position the (word-mode iff all-word-characters)
search returns, or left alone when there is no match. -/
theorem masking_boundary_law :
    (∀ (hay pat : List Char) (start i : Nat),
      reSearch hay pat true start = some i →
        pat.isPrefixOf (hay.drop i) = true ∧
        (i = 0 ∨ isWordChar (hay.getD (i - 1) ' ') = false) ∧
        (i + pat.length = hay.length ∨
          isWordChar (hay.getD (i + pat.length) ' ') = false)) ∧
    (∀ (hay pat : List Char) (start : Nat),
      reSearch hay pat false start = findFrom hay pat start) ∧
    (∀ (raw tok : List Char) (v threshold : Int),
      strip tok ≠ [] → 0 ≤ v → v < threshold →
      _build_masked_text raw [tok] [ConfVal.num v] threshold =
        match reSearch raw (strip tok) ((strip tok).all isWordChar) 0 with
        | some i => (raw.take i ++ unkChars ++ raw.drop (i + (strip tok).length), 1)
        | none => (raw, 0)) := by
  refine ⟨?_, ?_, ?_⟩
  · intro hay pat start i h
    obtain ⟨_, hm⟩ := reSearch_some h
    simp only [matchAt, Bool.and_eq_true, Bool.not_true, Bool.false_or,
      boundaryBefore, boundaryAfter, Bool.or_eq_true, beq_iff_eq,
      Bool.not_eq_true'] at hm
    exact ⟨hm.1, hm.2.1, hm.2.2⟩
  · intro hay pat start
    unfold reSearch findFrom
    by_cases hs : start ≤ hay.length
    · rw [if_pos hs, if_pos hs, searchAux_false_eq]
    · rw [if_neg hs, if_neg hs]
  · intro raw tok v threshold hstrip hv0 hvt
    rcases hsearch : reSearch raw (strip tok) ((strip tok).all isWordChar) 0 with _ | i
    · rw [_build_masked_text, List.zip_cons_cons, List.zip_nil_right,
        buildLoop_step_notfound hstrip ⟨hvt, hv0⟩ [] raw 0 0 hsearch, buildLoop_nil]
    · rw [_build_masked_text, List.zip_cons_cons, List.zip_nil_right,
        buildLoop_step_found hstrip ⟨hvt, hv0⟩ [] raw 0 0 i hsearch, buildLoop_nil]

/-- C6 witness: masking the low-confidence word token `I` leaves `Island`
untouched (no mid-word replacement). -/
theorem masking_boundary_law_witness :
    _build_masked_text "Island".data ["I".data] [ConfVal.num 10] 65
      = ("Island".data, 0) := by
  have h := masking_boundary_law.2.2 "Island".data "I".data 10 65
    (by decide) (by decide) (by decide)
  rw [h]
  decide

/-- C7: the masker is a total function (the embedding cannot raise), and it
skips — without masking, without touching the count, the transcript or the
cursor — every pair whose token is empty after trimming, whose confidence is
not interpretable as a number, or whose confidence is negative, as well as
every eligible token with no match from the cursor onward. -/
theorem masker_graceful_skip_law (threshold : Int) :
    (∀ (raw : List Char) (tokens : List (List Char)) (confidences : List ConfVal),
      _build_masked_text raw tokens confidences threshold =
        buildLoop threshold (tokens.zip confidences) raw 0 0) ∧
    (∀ (tok : List Char) (conf : ConfVal) (rest : List (List Char × ConfVal))
        (masked : List Char) (count searchStart : Nat),
      strip tok = [] →
      buildLoop threshold ((tok, conf) :: rest) masked count searchStart =
        buildLoop threshold rest masked count searchStart) ∧
    (∀ (tok : List Char) (rest : List (List Char × ConfVal))
        (masked : List Char) (count searchStart : Nat),
      buildLoop threshold ((tok, ConfVal.invalid) :: rest) masked count searchStart =
        buildLoop threshold rest masked count searchStart) ∧
    (∀ (tok : List Char) (v : Int) (rest : List (List Char × ConfVal))
        (masked : List Char) (count searchStart : Nat),
      v < 0 →
      buildLoop threshold ((tok, ConfVal.num v) :: rest) masked count searchStart =
        buildLoop threshold rest masked count searchStart) ∧
    (∀ (tok : List Char) (v : Int) (rest : List (List Char × ConfVal))
        (masked : List Char) (count searchStart : Nat),
      0 ≤ v → v < threshold →
      reSearch masked (strip tok) ((strip tok).all isWordChar) searchStart = none →
      buildLoop threshold ((tok, ConfVal.num v) :: rest) masked count searchStart =
        buildLoop threshold rest masked count searchStart) := by
  refine ⟨fun _ _ _ => rfl, ?_, ?_, ?_, ?_⟩
  · intro tok conf rest masked count ss hstrip
    exact buildLoop_skip_strip hstrip threshold conf rest masked count ss
  · intro tok rest masked count ss
    by_cases hstrip : strip tok = []
    · exact buildLoop_skip_strip hstrip threshold ConfVal.invalid rest masked count ss
    · exact buildLoop_skip_invalid hstrip threshold rest masked count ss
  · intro tok v rest masked count ss hv
    by_cases hstrip : strip tok = []
    · exact buildLoop_skip_strip hstrip threshold (ConfVal.num v) rest masked count ss
    · exact buildLoop_skip_range hstrip (by omega) rest masked count ss
  · intro tok v rest masked count ss hv0 hvt hsearch
    by_cases hstrip : strip tok = []
    · exact buildLoop_skip_strip hstrip threshold (ConfVal.num v) rest masked count ss
    · exact buildLoop_step_notfound hstrip ⟨hvt, hv0⟩ rest masked count ss hsearch

/-- C7 witness: a whitespace-only token is skipped, leaving the state of the
loop untouched. -/
theorem masker_graceful_skip_law_witness :
    buildLoop 65 [(" ".data, ConfVal.num 10)] "abc".data 0 0 =
      buildLoop 65 [] "abc".data 0 0 :=
  (masker_graceful_skip_law 65).2.1 " ".data (ConfVal.num 10) [] "abc".data 0 0
    (by decide)

end OcrBatcher
